import Mathlib

/-!
Shallow embedding of `src/packed_vector.rs`: a packed (coordinate-list) sparse
vector.  Exact rationals (`ℚ`) stand in for `f64`, so every arithmetic identity
below is about the symbolic real arithmetic the source performs.  A panicking
array access in the Rust source (`v[i]` with `i` out of range) is modelled with
`Option`, `none` meaning the out-of-range fault.  The `println!` density
advisory of `gather` is modelled as the `Bool` component of
`gatherWithAdvisory`.  The Rust loops read `index[k]` and `data[k]` in lockstep
for `k < data.len()`; they are rendered as recursion over `index.zip data`,
which coincides with the source under the structural invariant
`index.len() == data.len()` maintained by `new`, `gather` and `mul_add` and
assumed by every well-formedness hypothesis below.
-/

/-- The `PackedVec` struct of the source: positions of the stored entries,
their values, and the logical full length of the vector. -/
structure PackedVec where
  index : List Nat
  data : List ℚ
  full_length : Nat
deriving Repr, DecidableEq

namespace PackedVec

/-- `PackedVec::new`: the empty packed vector. -/
def new : PackedVec := { index := [], data := [], full_length := 0 }

/-- `PackedVec::gather` together with its density advisory: the source filters
the enumerated input for nonzero values, unzips into `index`/`data` (rendered
as the two projections of the filtered pair list), and prints a warning when
`original.len() <= index.len() + data.len()`.  The `Bool` component records
whether the `println!` fires; the vector component is the returned struct,
computed independently of the flag just as in the source. -/
def gatherWithAdvisory (original : List ℚ) : PackedVec × Bool :=
  let pairs := original.enum.filter fun p => decide (p.2 ≠ 0)
  let index := pairs.map Prod.fst
  let data := pairs.map Prod.snd
  ({ index := index, data := data, full_length := original.length },
   decide (original.length ≤ index.length + data.length))

/-- `PackedVec::gather`, the returned vector (the advisory is a pure
diagnostic side channel). -/
def gather (original : List ℚ) : PackedVec :=
  (gatherWithAdvisory original).1

/-- The write loop of `PackedVec::scatter`: for each stored pair `(i, v)` set
`acc[i] = v`; an out-of-range position is a panic (`none`). -/
def scatterAux : List (Nat × ℚ) → List ℚ → Option (List ℚ)
  | [], acc => some acc
  | (i, v) :: rest, acc =>
    if i < acc.length then scatterAux rest (acc.set i v) else none

/-- `PackedVec::scatter`: zero-fill a vector of length `full_length`, then
write every stored entry at its position. -/
def scatter (x : PackedVec) : Option (List ℚ) :=
  scatterAux (x.index.zip x.data) (List.replicate x.full_length 0)

/-- `PackedVec::len`: the number of stored components. -/
def len (x : PackedVec) : Nat := x.data.length

/-- `PackedVec::is_empty`. -/
def isEmpty (x : PackedVec) : Bool := x.data.isEmpty

/-- Phase 1 of `mul_add`: for each packed slot `ky` of `y` record
`tmp[y.index[ky]] = Some(ky)`; a position outside the scratch array is a
panic. -/
def phase1 : List Nat → Nat → List (Option Nat) → Option (List (Option Nat))
  | [], _, tmp => some tmp
  | iy :: rest, ky, tmp =>
    if iy < tmp.length then phase1 rest (ky + 1) (tmp.set iy (some ky))
    else none

/-- Phase 2 of `mul_add`: scan the stored entries of `x`; where
`tmp[ix].take()` yields `Some(ky)` replace the value by
`x.data[kx] + alpha * y.data[ky]` (a panic if `ky` is out of `y.data`'s
range); `Option::take` always writes `None` back. -/
def phase2 (yd : List ℚ) (alpha : ℚ) :
    List (Nat × ℚ) → List (Option Nat) → Option (List ℚ × List (Option Nat))
  | [], tmp => some ([], tmp)
  | (ix, vx) :: rest, tmp =>
    if ix < tmp.length then
      match tmp.getD ix none with
      | some ky =>
        match yd.get? ky with
        | some vy =>
          match phase2 yd alpha rest (tmp.set ix none) with
          | some (ds, tmp2) => some ((vx + alpha * vy) :: ds, tmp2)
          | none => none
        | none => none
      | none =>
        match phase2 yd alpha rest (tmp.set ix none) with
        | some (ds, tmp2) => some (vx :: ds, tmp2)
        | none => none
    else none

/-- Phase 3 of `mul_add`: scan the stored entries of `y`; where
`tmp[iy].take()` is still `Some`, append `(iy, alpha * y.data[ky])` using the
current loop slot's value, in scan order. -/
def phase3 (alpha : ℚ) :
    List (Nat × ℚ) → List (Option Nat) → Option (List (Nat × ℚ) × List (Option Nat))
  | [], tmp => some ([], tmp)
  | (iy, vy) :: rest, tmp =>
    if iy < tmp.length then
      match tmp.getD iy none with
      | some _ =>
        match phase3 alpha rest (tmp.set iy none) with
        | some (app, tmp2) => some ((iy, alpha * vy) :: app, tmp2)
        | none => none
      | none => phase3 alpha rest (tmp.set iy none)
    else none

/-- `PackedVec::mul_add`: scratch array of length `self.full_length`, then the
three phases; the appended pairs extend `index` and `data`.  `none` models the
panic of any out-of-range access in the source. -/
def mulAdd (x : PackedVec) (y : PackedVec) (alpha : ℚ) : Option PackedVec :=
  match phase1 y.index 0 (List.replicate x.full_length none) with
  | none => none
  | some tmp1 =>
    match phase2 y.data alpha (x.index.zip x.data) tmp1 with
    | none => none
    | some (data2, tmp2) =>
      match phase3 alpha (y.index.zip y.data) tmp2 with
      | none => none
      | some (app, _) =>
        some { index := x.index ++ app.map Prod.fst
             , data := data2 ++ app.map Prod.snd
             , full_length := x.full_length }

/-- The cursor loop of `impl Mul for PackedVec` (the inner product): compare
the current positions; on a match accumulate the product and advance both
cursors, otherwise advance the cursor with the smaller position. -/
def dotMerge : List (Nat × ℚ) → List (Nat × ℚ) → ℚ
  | [], _ => 0
  | _ :: _, [] => 0
  | (ix, vx) :: xs, (iy, vy) :: ys =>
    if ix = iy then vx * vy + dotMerge xs ys
    else if iy < ix then dotMerge ((ix, vx) :: xs) ys
    else dotMerge xs ((iy, vy) :: ys)
termination_by xs ys => xs.length + ys.length

/-- `impl Mul for PackedVec`: the inner product of two packed vectors. -/
def mul (x y : PackedVec) : ℚ :=
  dotMerge (x.index.zip x.data) (y.index.zip y.data)

/-- Well-formedness of a packed vector, the structural invariant of the data
model: `index` and `data` have the same length, positions are pairwise
distinct, and every position is below `full_length`. -/
def WF (x : PackedVec) : Prop :=
  x.index.length = x.data.length ∧ x.index.Nodup ∧ ∀ i ∈ x.index, i < x.full_length

instance (x : PackedVec) : Decidable x.WF := by
  unfold WF; infer_instance

end PackedVec

/-- Keys of an association list of stored entries. -/
def keys (l : List (Nat × ℚ)) : List Nat := l.map Prod.fst

/-- First-match lookup in an association list of stored entries, `0` when the
key is absent: the value a packed pair list denotes at a full-vector
position. -/
def keyVal : List (Nat × ℚ) → Nat → ℚ
  | [], _ => 0
  | (k, v) :: rest, i => if k = i then v else keyVal rest i

/-! ### Basic list helpers -/

theorem getD_set_eq {α : Type*} (l : List α) (i : Nat) (v d : α) (h : i < l.length) :
    (l.set i v).getD i d = v := by
  simp [List.getD, List.getElem?_set_eq_of_lt (h := h)]

theorem getD_set_ne {α : Type*} (l : List α) {i j : Nat} (v d : α) (h : i ≠ j) :
    (l.set i v).getD j d = l.getD j d := by
  simp [List.getD, List.getElem?_set_ne h]

theorem getD_replicate {α : Type*} {n j : Nat} (a d : α) (h : j < n) :
    (List.replicate n a).getD j d = a := by
  simp [List.getD, List.getElem?_replicate, if_pos h]

/-! ### Association-list lookup lemmas -/

theorem keys_cons (k : Nat) (v : ℚ) (rest : List (Nat × ℚ)) :
    keys ((k, v) :: rest) = k :: keys rest := rfl

theorem mem_keys_iff {l : List (Nat × ℚ)} {i : Nat} : i ∈ keys l ↔ ∃ p ∈ l, p.1 = i := by
  simp [keys, List.mem_map]

theorem keyVal_eq_zero : ∀ {l : List (Nat × ℚ)} {i : Nat}, i ∉ keys l → keyVal l i = 0
  | [], _, _ => rfl
  | (k, v) :: rest, i, h => by
    rw [keys_cons] at h
    simp only [List.mem_cons, not_or] at h
    have hk : ¬ k = i := fun e => h.1 e.symm
    simp only [keyVal, if_neg hk]
    exact keyVal_eq_zero h.2

theorem keyVal_append (l1 l2 : List (Nat × ℚ)) (i : Nat) :
    keyVal (l1 ++ l2) i = if i ∈ keys l1 then keyVal l1 i else keyVal l2 i := by
  induction l1 with
  | nil => simp [keys, keyVal]
  | cons p rest ih =>
    obtain ⟨k, v⟩ := p
    by_cases hk : k = i
    · subst hk
      simp [keyVal, keys_cons]
    · have hik : ¬ i = k := fun e => hk e.symm
      simp [List.cons_append, keyVal, keys_cons, List.mem_cons, hk, hik, ih]

theorem keyVal_zip_get : ∀ (A : List Nat) (B : List ℚ) (k i : Nat) (v : ℚ),
    A.Nodup → A.get? k = some i → B.get? k = some v → keyVal (A.zip B) i = v
  | [], _, k, _, _, _, hA, _ => by simp at hA
  | _ :: _, [], k, _, _, _, _, hB => by simp at hB
  | a :: A2, b :: B2, 0, i, v, _, hA, hB => by
    simp only [List.get?_cons_zero, Option.some.injEq] at hA hB
    subst hA; subst hB
    simp [List.zip_cons_cons, keyVal]
  | a :: A2, b :: B2, k + 1, i, v, hnd, hA, hB => by
    simp only [List.get?_cons_succ] at hA hB
    have hmem : i ∈ A2 := List.get?_mem hA
    have hne : ¬ a = i := fun e => (List.nodup_cons.mp hnd).1 (e ▸ hmem)
    rw [List.zip_cons_cons]
    simp only [keyVal, if_neg hne]
    exact keyVal_zip_get A2 B2 k i v (List.nodup_cons.mp hnd).2 hA hB

theorem keyVal_zip_self : ∀ (A : List Nat) (B : List ℚ), A.Nodup →
    ∀ p ∈ A.zip B, keyVal (A.zip B) p.1 = p.2
  | [], _, _, p, hp => by simp at hp
  | _ :: _, [], _, p, hp => by simp at hp
  | a :: A2, b :: B2, hnd, p, hp => by
    obtain ⟨i, v⟩ := p
    rw [List.zip_cons_cons] at hp ⊢
    rcases List.mem_cons.mp hp with h | h
    · rw [Prod.mk.injEq] at h
      obtain ⟨h1, h2⟩ := h
      subst h1; subst h2
      simp [keyVal]
    · have hpa : i ∈ A2 := (List.of_mem_zip h).1
      have hne : ¬ a = i := fun e => (List.nodup_cons.mp hnd).1 (e ▸ hpa)
      simp only [keyVal, if_neg hne]
      exact keyVal_zip_self A2 B2 (List.nodup_cons.mp hnd).2 ⟨i, v⟩ h

/-! ### Enumeration and gather lemmas -/

/-- The filtered enumeration that `gather` builds its pair list from,
generalized over the starting offset for induction. -/
def gatherPairsFrom (s : Nat) (a : List ℚ) : List (Nat × ℚ) :=
  (List.enumFrom s a).filter fun p => decide (p.2 ≠ 0)

/-- The pair list underlying `gather`. -/
def gatherPairs (a : List ℚ) : List (Nat × ℚ) := gatherPairsFrom 0 a

theorem gatherPairs_eq (a : List ℚ) :
    gatherPairs a = a.enum.filter fun p => decide (p.2 ≠ 0) := rfl

theorem gather_index (a : List ℚ) :
    (PackedVec.gather a).index = (gatherPairs a).map Prod.fst := rfl

theorem gather_data (a : List ℚ) :
    (PackedVec.gather a).data = (gatherPairs a).map Prod.snd := rfl

theorem gather_full_length (a : List ℚ) :
    (PackedVec.gather a).full_length = a.length := rfl

theorem gather_zip (a : List ℚ) :
    (PackedVec.gather a).index.zip (PackedVec.gather a).data = gatherPairs a := by
  rw [gather_index, gather_data, List.zip_map']
  simp

theorem enumFrom_bounds : ∀ (a : List ℚ) (s : Nat) (p : Nat × ℚ),
    p ∈ List.enumFrom s a → s ≤ p.1 ∧ p.1 < s + a.length
  | [], _, p, h => by simp at h
  | x :: rest, s, p, h => by
    rw [List.enumFrom_cons] at h
    rcases List.mem_cons.mp h with h | h
    · subst h; simp
    · have := enumFrom_bounds rest (s + 1) p h
      simp only [List.length_cons]
      omega

theorem enumFrom_pairwise : ∀ (a : List ℚ) (s : Nat),
    (List.enumFrom s a).Pairwise (fun p q => p.1 < q.1)
  | [], _ => List.Pairwise.nil
  | x :: rest, s => by
    rw [List.enumFrom_cons]
    refine List.Pairwise.cons ?_ (enumFrom_pairwise rest (s + 1))
    intro q hq
    have := enumFrom_bounds rest (s + 1) q hq
    omega

theorem gatherPairsFrom_bounds (a : List ℚ) (s : Nat) :
    ∀ p ∈ gatherPairsFrom s a, s ≤ p.1 ∧ p.1 < s + a.length :=
  fun p hp => enumFrom_bounds a s p (List.mem_of_mem_filter hp)

theorem gatherPairsFrom_pairwise (a : List ℚ) (s : Nat) :
    (gatherPairsFrom s a).Pairwise (fun p q => p.1 < q.1) :=
  (enumFrom_pairwise a s).filter _

theorem gatherPairsFrom_cons (s : Nat) (x : ℚ) (rest : List ℚ) :
    gatherPairsFrom s (x :: rest) =
      if x ≠ 0 then (s, x) :: gatherPairsFrom (s + 1) rest else gatherPairsFrom (s + 1) rest := by
  rw [gatherPairsFrom, List.enumFrom_cons, List.filter_cons]
  by_cases hx : x = 0 <;> simp [hx, gatherPairsFrom]

theorem gatherPairsFrom_keyVal : ∀ (a : List ℚ) (s i : Nat), i < a.length →
    keyVal (gatherPairsFrom s a) (s + i) = a.getD i 0
  | [], _, i, h => absurd h (by simp)
  | x :: rest, s, i, h => by
    rw [gatherPairsFrom_cons]
    by_cases hx : x = 0
    · simp only [hx, ne_eq, not_true_eq_false, if_false]
      cases i with
      | zero =>
        have hnot : (s + 0) ∉ keys (gatherPairsFrom (s + 1) rest) := by
          intro hm
          obtain ⟨p, hp, hpe⟩ := mem_keys_iff.mp hm
          have := (gatherPairsFrom_bounds rest (s + 1) p hp).1
          omega
        rw [keyVal_eq_zero hnot]
        simp [hx]
      | succ j =>
        have he : s + (j + 1) = (s + 1) + j := by omega
        rw [he, gatherPairsFrom_keyVal rest (s + 1) j (by simpa using h)]
        simp
    · simp only [hx, ne_eq, not_false_eq_true, if_true]
      cases i with
      | zero => simp [keyVal]
      | succ j =>
        have hne : ¬ s = s + (j + 1) := by omega
        simp only [keyVal, if_neg hne]
        have he : s + (j + 1) = (s + 1) + j := by omega
        rw [he, gatherPairsFrom_keyVal rest (s + 1) j (by simpa using h)]
        simp

theorem gatherPairsFrom_length : ∀ (a : List ℚ) (s : Nat),
    (gatherPairsFrom s a).length = a.countP fun q => decide (q ≠ 0)
  | [], _ => rfl
  | x :: rest, s => by
    rw [gatherPairsFrom_cons, List.countP_cons]
    by_cases hx : x = 0
    · simp [hx, gatherPairsFrom_length rest (s + 1)]
    · simp [hx, gatherPairsFrom_length rest (s + 1)]

/-! ### C7 and C8: gather diagnostics and accounting -/

/-- C7: the density advisory of `gather` fires exactly when the nonzero count
is not less than half of the input length (`N ≤ 2 * nnz`), and the returned
packed vector is the `gather` result whether or not the advisory fires: the
advisory never alters the result or aborts construction. -/
theorem gather_advisory_iff_dense (a : List ℚ) :
    ((PackedVec.gatherWithAdvisory a).2 = true ↔
      a.length ≤ 2 * a.countP fun q => decide (q ≠ 0)) ∧
    (PackedVec.gatherWithAdvisory a).1 = PackedVec.gather a := by
  refine ⟨?_, rfl⟩
  have hl : (a.enum.filter fun p => decide (p.2 ≠ 0)).length
      = a.countP fun q => decide (q ≠ 0) := gatherPairsFrom_length a 0
  simp only [PackedVec.gatherWithAdvisory, List.length_map, decide_eq_true_eq, hl]
  omega

/-- C8: `len (gather v)` is the number of positions of `v` holding a nonzero
value, and `is_empty (gather v)` holds iff that count is `0`. -/
theorem gather_len_eq_nonzero_count (v : List ℚ) :
    (PackedVec.gather v).len = (v.countP fun q => decide (q ≠ 0)) ∧
    ((PackedVec.gather v).isEmpty = true ↔ (v.countP fun q => decide (q ≠ 0)) = 0) := by
  have hlen : (PackedVec.gather v).len = v.countP fun q => decide (q ≠ 0) := by
    rw [PackedVec.len, gather_data, List.length_map]
    exact gatherPairsFrom_length v 0
  refine ⟨hlen, ?_⟩
  rw [PackedVec.isEmpty, List.isEmpty_iff_length_eq_zero]
  rw [show (PackedVec.gather v).data.length = (PackedVec.gather v).len from rfl, hlen]

/-! ### Scatter characterization and C4 -/

theorem list_ext_getD : ∀ {l1 l2 : List ℚ}, l1.length = l2.length →
    (∀ j, l1.getD j 0 = l2.getD j 0) → l1 = l2
  | [], [], _, _ => rfl
  | [], _ :: _, hl, _ => by simp at hl
  | _ :: _, [], hl, _ => by simp at hl
  | a :: l1, b :: l2, hl, h => by
    have hab := h 0
    simp only [List.getD_cons_zero] at hab
    subst hab
    have ht : l1 = l2 :=
      list_ext_getD (by simpa using hl) fun j => by simpa using h (j + 1)
    rw [ht]

theorem scatterAux_spec : ∀ (l : List (Nat × ℚ)) (acc : List ℚ),
    (keys l).Nodup → (∀ p ∈ l, p.1 < acc.length) →
    ∃ d, PackedVec.scatterAux l acc = some d ∧ d.length = acc.length ∧
      ∀ j, d.getD j 0 = if j ∈ keys l then keyVal l j else acc.getD j 0
  | [], acc, _, _ => ⟨acc, rfl, rfl, fun j => by simp [keys, keyVal]⟩
  | (i, v) :: rest, acc, hnd, hbd => by
    have hi : i < acc.length := hbd (i, v) (List.mem_cons_self _ _)
    rw [keys_cons, List.nodup_cons] at hnd
    obtain ⟨d, hd, hlen, hget⟩ :=
      scatterAux_spec rest (acc.set i v) hnd.2
        (fun p hp => by rw [List.length_set]; exact hbd p (List.mem_cons_of_mem _ hp))
    refine ⟨d, ?_, by rw [hlen, List.length_set], fun j => ?_⟩
    · rw [PackedVec.scatterAux, if_pos hi]
      exact hd
    · rw [hget j, keys_cons]
      by_cases hjr : j ∈ keys rest
      · have hij : ¬ i = j := fun e => hnd.1 (e ▸ hjr)
        simp only [keyVal, if_pos hjr, if_neg hij, List.mem_cons, hjr, or_true, if_true]
      · by_cases hij : j = i
        · subst hij
          simp only [if_neg hjr, List.mem_cons, true_or, if_true, keyVal, if_pos rfl]
          exact getD_set_eq acc j v 0 hi
        · have hne : ¬ (j = i ∨ j ∈ keys rest) := by
            intro hc; rcases hc with hc | hc
            · exact hij hc
            · exact hjr hc
          simp only [if_neg hjr, List.mem_cons, if_neg hne]
          exact getD_set_ne acc v 0 fun e => hij e.symm

theorem getD_replicate_zero (n j : Nat) : (List.replicate n (0 : ℚ)).getD j 0 = 0 := by
  by_cases h : j < n
  · exact getD_replicate 0 0 h
  · exact List.getD_eq_default _ _ (by simp; omega)

theorem gatherPairs_keyVal (a : List ℚ) (j : Nat) :
    keyVal (gatherPairs a) j = a.getD j 0 := by
  by_cases h : j < a.length
  · simpa using gatherPairsFrom_keyVal a 0 j h
  · have hnot : j ∉ keys (gatherPairs a) := by
      intro hm
      obtain ⟨p, hp, he⟩ := mem_keys_iff.mp hm
      have := (gatherPairsFrom_bounds a 0 p hp).2
      omega
    rw [keyVal_eq_zero hnot, List.getD_eq_default _ _ (by omega)]

theorem gather_index_pairwise (a : List ℚ) :
    (PackedVec.gather a).index.Pairwise (· < ·) := by
  rw [gather_index]
  exact (gatherPairsFrom_pairwise a 0).map Prod.fst fun p q h => h

theorem gather_wf (a : List ℚ) : (PackedVec.gather a).WF := by
  refine ⟨by rw [gather_index, gather_data]; simp, ?_, ?_⟩
  · exact (gather_index_pairwise a).imp Nat.ne_of_lt
  · intro i hi
    rw [gather_index] at hi
    obtain ⟨p, hp, he⟩ := List.mem_map.mp hi
    rw [gather_full_length]
    have := (gatherPairsFrom_bounds a 0 p hp).2
    omega

theorem scatter_spec (x : PackedVec) (hlen : x.index.length = x.data.length)
    (hnd : x.index.Nodup) (hbd : ∀ i ∈ x.index, i < x.full_length) :
    ∃ d, x.scatter = some d ∧ d.length = x.full_length ∧
      ∀ j, d.getD j 0 = keyVal (x.index.zip x.data) j := by
  have hkeys : keys (x.index.zip x.data) = x.index :=
    List.map_fst_zip _ _ (le_of_eq hlen)
  obtain ⟨d, hd, hl, hget⟩ :=
    scatterAux_spec (x.index.zip x.data) (List.replicate x.full_length 0)
      (by rw [hkeys]; exact hnd)
      (fun p hp => by
        rw [List.length_replicate]
        exact hbd p.1 ((List.of_mem_zip hp).1))
  refine ⟨d, hd, by rw [hl, List.length_replicate], fun j => ?_⟩
  rw [hget j, hkeys]
  by_cases hj : j ∈ x.index
  · rw [if_pos hj]
  · rw [if_neg hj, getD_replicate_zero, keyVal_eq_zero]
    rw [hkeys]
    exact hj

/-- C4: `scatter (gather v)` reproduces `v` element for element, for every
dense input `v` (round-trip identity). -/
theorem scatter_gather_roundtrip (v : List ℚ) :
    (PackedVec.gather v).scatter = some v := by
  obtain ⟨hl, hnd, hbd⟩ := gather_wf v
  obtain ⟨d, hd, hlen, hget⟩ := scatter_spec (PackedVec.gather v) hl hnd hbd
  rw [hd]
  refine congrArg some (list_ext_getD ?_ fun j => ?_)
  · rw [hlen, gather_full_length]
  · rw [hget j, gather_zip, gatherPairs_keyVal]

/-! ### Merge-join inner product: C5 -/

theorem head_not_mem_keys {k : Nat} {v : ℚ} {l : List (Nat × ℚ)}
    (h : ((k, v) :: l).Pairwise fun p q => p.1 < q.1) : k ∉ keys l := by
  intro hm
  obtain ⟨p, hp, he⟩ := mem_keys_iff.mp hm
  have := (List.pairwise_cons.mp h).1 p hp
  omega

theorem dotMerge_spec : ∀ (xs ys : List (Nat × ℚ)) (n : Nat),
    xs.Pairwise (fun p q => p.1 < q.1) → ys.Pairwise (fun p q => p.1 < q.1) →
    (∀ p ∈ xs, p.1 < n) → (∀ p ∈ ys, p.1 < n) →
    PackedVec.dotMerge xs ys = ∑ i in Finset.range n, keyVal xs i * keyVal ys i
  | [], ys, n, _, _, _, _ => by
    simp [PackedVec.dotMerge, keyVal]
  | (ix, vx) :: xs, [], n, _, _, _, _ => by
    simp [PackedVec.dotMerge, keyVal]
  | (ix, vx) :: xs, (iy, vy) :: ys, n, hx, hy, hbx, hby => by
    by_cases he : ix = iy
    · subst he
      have hxa : ix ∉ keys xs := head_not_mem_keys hx
      have hya : ix ∉ keys ys := head_not_mem_keys hy
      have hrec := dotMerge_spec xs ys n (List.pairwise_cons.mp hx).2
        (List.pairwise_cons.mp hy).2
        (fun p hp => hbx p (List.mem_cons_of_mem _ hp))
        (fun p hp => hby p (List.mem_cons_of_mem _ hp))
      simp only [PackedVec.dotMerge, if_pos rfl, eq_self_iff_true, if_true, hrec]
      have hterm : ∀ i ∈ Finset.range n,
          keyVal ((ix, vx) :: xs) i * keyVal ((ix, vy) :: ys) i
            = keyVal xs i * keyVal ys i + (if i = ix then vx * vy else 0) := by
        intro i _
        by_cases hi : i = ix
        · subst hi
          rw [keyVal_eq_zero hxa, keyVal_eq_zero hya]
          simp [keyVal]
        · have hne : ¬ ix = i := fun e => hi e.symm
          simp only [keyVal, if_neg hne, if_neg hi, add_zero]
      rw [Finset.sum_congr rfl hterm, Finset.sum_add_distrib,
        Finset.sum_ite_eq' (Finset.range n) ix fun _ => vx * vy,
        if_pos (Finset.mem_range.mpr (hbx (ix, vx) (List.mem_cons_self _ _)))]
      ring
    · by_cases hlt : iy < ix
      · have hrec := dotMerge_spec ((ix, vx) :: xs) ys n hx
          (List.pairwise_cons.mp hy).2 hbx
          (fun p hp => hby p (List.mem_cons_of_mem _ hp))
        have hne : ¬ ix = iy := he
        simp only [PackedVec.dotMerge, if_neg hne, if_pos hlt, hrec]
        refine Finset.sum_congr rfl fun i _ => ?_
        by_cases hi : i = iy
        · subst hi
          have hya : i ∉ keys ys := head_not_mem_keys hy
          have hxs : ∀ q ∈ xs, ix < q.1 := (List.pairwise_cons.mp hx).1
          have hxa : i ∉ keys ((ix, vx) :: xs) := by
            rw [keys_cons]
            intro hm
            rcases List.mem_cons.mp hm with hm | hm
            · omega
            · obtain ⟨p, hp, hpe⟩ := mem_keys_iff.mp hm
              have := hxs p hp
              omega
          rw [keyVal_eq_zero hxa, keyVal_eq_zero hya]
          simp [keyVal]
        · have hne2 : ¬ iy = i := fun e => hi e.symm
          simp only [keyVal, if_neg hne2]
      · have hgt : ix < iy := by omega
        have hrec := dotMerge_spec xs ((iy, vy) :: ys) n
          (List.pairwise_cons.mp hx).2 hy
          (fun p hp => hbx p (List.mem_cons_of_mem _ hp)) hby
        have hne : ¬ ix = iy := he
        simp only [PackedVec.dotMerge, if_neg hne, if_neg hlt, hrec]
        refine Finset.sum_congr rfl fun i _ => ?_
        by_cases hi : i = ix
        · subst hi
          have hxa : i ∉ keys xs := head_not_mem_keys hx
          have hys : ∀ q ∈ ys, iy < q.1 := (List.pairwise_cons.mp hy).1
          have hya : i ∉ keys ((iy, vy) :: ys) := by
            rw [keys_cons]
            intro hm
            rcases List.mem_cons.mp hm with hm | hm
            · omega
            · obtain ⟨p, hp, hpe⟩ := mem_keys_iff.mp hm
              have := hys p hp
              omega
          rw [keyVal_eq_zero hxa, keyVal_eq_zero hya]
          simp [keyVal]
        · have hne2 : ¬ ix = i := fun e => hi e.symm
          simp only [keyVal, if_neg hne2]
termination_by xs ys => xs.length + ys.length

theorem dotMerge_disjoint : ∀ (xs ys : List (Nat × ℚ)),
    (∀ p ∈ xs, p.1 ∉ keys ys) → PackedVec.dotMerge xs ys = 0
  | [], ys, _ => by simp [PackedVec.dotMerge]
  | p :: xs, [], _ => by simp [PackedVec.dotMerge]
  | (ix, vx) :: xs, (iy, vy) :: ys, hdis => by
    have hne2 : ¬ ix = iy := by
      intro e
      refine hdis (ix, vx) (List.mem_cons_self _ _) ?_
      rw [keys_cons, e]
      exact List.mem_cons_self _ _
    by_cases hlt : iy < ix
    · simp only [PackedVec.dotMerge, if_neg hne2, if_pos hlt]
      exact dotMerge_disjoint ((ix, vx) :: xs) ys fun p hp hm =>
        hdis p hp (by rw [keys_cons]; exact List.mem_cons_of_mem _ hm)
    · simp only [PackedVec.dotMerge, if_neg hne2, if_neg hlt]
      exact dotMerge_disjoint xs ((iy, vy) :: ys) fun p hp =>
        hdis p (List.mem_cons_of_mem _ hp)
termination_by xs ys => xs.length + ys.length

/-- C5: the inner product of `gather a` and `gather b` (for dense arrays of
equal length) is the elementwise dot product; and the inner product of any two
packed vectors whose index sets do not overlap (in particular two empty
vectors) is `0`. -/
theorem dot_gather_correct :
    (∀ (a b : List ℚ), a.length = b.length →
      PackedVec.mul (PackedVec.gather a) (PackedVec.gather b)
        = ∑ i in Finset.range a.length, a.getD i 0 * b.getD i 0) ∧
    (∀ x y : PackedVec, (∀ i ∈ x.index, i ∉ y.index) → PackedVec.mul x y = 0) := by
  constructor
  · intro a b hab
    rw [PackedVec.mul, gather_zip, gather_zip]
    rw [dotMerge_spec (gatherPairs a) (gatherPairs b) a.length
      (gatherPairsFrom_pairwise a 0) (gatherPairsFrom_pairwise b 0)
      (fun p hp => by have := (gatherPairsFrom_bounds a 0 p hp).2; omega)
      (fun p hp => by have := (gatherPairsFrom_bounds b 0 p hp).2; omega)]
    exact Finset.sum_congr rfl fun i _ => by rw [gatherPairs_keyVal, gatherPairs_keyVal]
  · intro x y hdis
    rw [PackedVec.mul]
    apply dotMerge_disjoint
    intro p hp hm
    obtain ⟨i, v⟩ := p
    have h1 : i ∈ x.index := (List.of_mem_zip hp).1
    obtain ⟨q, hq, hqe⟩ := mem_keys_iff.mp hm
    obtain ⟨j, w⟩ := q
    have h2 : j ∈ y.index := (List.of_mem_zip hq).1
    have hji : j = i := hqe
    exact hdis i h1 (hji ▸ h2)

/-- Witness for C5 at concrete inputs. -/
theorem dot_gather_correct_witness :
    PackedVec.mul (PackedVec.gather [1, 2]) (PackedVec.gather [3, 4])
      = ∑ i in Finset.range ([1, 2] : List ℚ).length,
          ([1, 2] : List ℚ).getD i 0 * ([3, 4] : List ℚ).getD i 0 ∧
    PackedVec.mul (PackedVec.gather [1, 0]) (PackedVec.gather [0, 2]) = 0 :=
  ⟨dot_gather_correct.1 [1, 2] [3, 4] rfl,
   dot_gather_correct.2 (PackedVec.gather [1, 0]) (PackedVec.gather [0, 2]) (by decide)⟩

/-! ### The scratch-array invariant of `mul_add` -/

/-- Invariant of the scratch array `tmp` during `mul_add`, relative to the
source vector's data `yd` and pair list `yp`: positions satisfying `P` are
exactly the marked ones, and a marked position holds a packed slot of `y`
whose data value is the value `y` denotes at that position. -/
def TmpInv (yd : List ℚ) (yp : List (Nat × ℚ)) (tmp : List (Option Nat)) (P : Nat → Prop) : Prop :=
  (∀ i, ¬ P i → tmp.getD i none = none) ∧
  (∀ i, P i → ∃ ky, tmp.getD i none = some ky ∧ yd.get? ky = some (keyVal yp i))

theorem TmpInv_congr {yd : List ℚ} {yp : List (Nat × ℚ)} {tmp : List (Option Nat)}
    {P Q : Nat → Prop} (h : ∀ i, P i ↔ Q i) (hinv : TmpInv yd yp tmp P) :
    TmpInv yd yp tmp Q :=
  ⟨fun i hq => hinv.1 i fun hp => hq ((h i).mp hp),
   fun i hq => hinv.2 i ((h i).mpr hq)⟩

theorem getD_replicate_none (n j : Nat) :
    (List.replicate n (none : Option Nat)).getD j none = none := by
  by_cases h : j < n
  · exact getD_replicate none none h
  · exact List.getD_eq_default _ _ (by simp; omega)

theorem phase1_spec (yd : List ℚ) (yp : List (Nat × ℚ)) :
    ∀ (l : List Nat) (k0 : Nat) (tmp : List (Option Nat)) (P : Nat → Prop),
    TmpInv yd yp tmp P →
    (∀ i ∈ l, i < tmp.length) →
    l.Nodup →
    (∀ j iy, l.get? j = some iy → yd.get? (k0 + j) = some (keyVal yp iy)) →
    ∃ tmp2, PackedVec.phase1 l k0 tmp = some tmp2 ∧ tmp2.length = tmp.length ∧
      TmpInv yd yp tmp2 fun i => P i ∨ i ∈ l
  | [], k0, tmp, P, hinv, _, _, _ =>
    ⟨tmp, rfl, rfl, TmpInv_congr (fun i => by simp) hinv⟩
  | iy :: rest, k0, tmp, P, hinv, hbd, hnd, hslot => by
    have hiy : iy < tmp.length := hbd iy (List.mem_cons_self _ _)
    have hinv2 : TmpInv yd yp (tmp.set iy (some k0)) fun i => P i ∨ i = iy := by
      constructor
      · intro i hni
        rw [not_or] at hni
        rw [getD_set_ne _ _ _ fun e => hni.2 e.symm]
        exact hinv.1 i hni.1
      · intro i hi
        by_cases hii : i = iy
        · subst hii
          refine ⟨k0, getD_set_eq _ _ _ _ hiy, ?_⟩
          have := hslot 0 i (by simp)
          simpa using this
        · rcases hi with hi | hi
          · obtain ⟨ky, h1, h2⟩ := hinv.2 i hi
            exact ⟨ky, by rw [getD_set_ne _ _ _ fun e => hii e.symm]; exact h1, h2⟩
          · exact absurd hi hii
    obtain ⟨tmp2, h1, h2, h3⟩ := phase1_spec yd yp rest (k0 + 1) (tmp.set iy (some k0))
      (fun i => P i ∨ i = iy) hinv2
      (fun i hi => by rw [List.length_set]; exact hbd i (List.mem_cons_of_mem _ hi))
      (List.nodup_cons.mp hnd).2
      (fun j iy2 hj => by
        have := hslot (j + 1) iy2 (by simpa using hj)
        have he : k0 + (j + 1) = (k0 + 1) + j := by omega
        rw [← he]
        exact this)
    refine ⟨tmp2, ?_, by rw [h2, List.length_set], ?_⟩
    · rw [PackedVec.phase1, if_pos hiy]
      exact h1
    · refine TmpInv_congr (fun i => ?_) h3
      simp only [List.mem_cons]
      tauto

open Classical in
theorem phase2_spec (yd : List ℚ) (yp : List (Nat × ℚ)) (alpha : ℚ)
    (l : List (Nat × ℚ)) (tmp : List (Option Nat)) (P : Nat → Prop)
    (hinv : TmpInv yd yp tmp P)
    (hbd : ∀ p ∈ l, p.1 < tmp.length)
    (hnd : (keys l).Nodup) :
    ∃ ds tmp2, PackedVec.phase2 yd alpha l tmp = some (ds, tmp2) ∧
      tmp2.length = tmp.length ∧
      TmpInv yd yp tmp2 (fun i => P i ∧ i ∉ keys l) ∧
      ds = l.map fun p => p.2 + alpha * (if P p.1 then keyVal yp p.1 else 0) := by
  induction l generalizing tmp P with
  | nil =>
    exact ⟨[], tmp, rfl, rfl, TmpInv_congr (fun i => by simp [keys]) hinv, by simp⟩
  | cons hd rest ih =>
    obtain ⟨ix, vx⟩ := hd
    have hix : ix < tmp.length := hbd (ix, vx) (List.mem_cons_self _ _)
    rw [keys_cons, List.nodup_cons] at hnd
    have hinv2 : TmpInv yd yp (tmp.set ix none) fun i => P i ∧ i ≠ ix := by
      constructor
      · intro i hni
        by_cases hii : i = ix
        · subst hii
          exact getD_set_eq _ _ _ _ hix
        · rw [getD_set_ne _ _ _ fun e => hii e.symm]
          exact hinv.1 i fun hp => hni ⟨hp, hii⟩
      · intro i hi
        obtain ⟨ky, h1, h2⟩ := hinv.2 i hi.1
        exact ⟨ky, by rw [getD_set_ne _ _ _ fun e => hi.2 e.symm]; exact h1, h2⟩
    obtain ⟨ds, tmp2, h1, h2, h3, h4⟩ := ih (tmp.set ix none) (fun i => P i ∧ i ≠ ix) hinv2
      (fun p hp => by rw [List.length_set]; exact hbd p (List.mem_cons_of_mem _ hp))
      hnd.2
    have hinvf : TmpInv yd yp tmp2 fun i => P i ∧ i ∉ keys ((ix, vx) :: rest) := by
      refine TmpInv_congr (fun i => ?_) h3
      rw [keys_cons]
      simp only [List.mem_cons, not_or]
      tauto
    by_cases hP : P ix
    · obtain ⟨ky, hky, hyv⟩ := hinv.2 ix hP
      refine ⟨(vx + alpha * keyVal yp ix) :: ds, tmp2, ?_,
        by rwa [List.length_set] at h2, hinvf, ?_⟩
      · simp only [PackedVec.phase2, if_pos hix, hky, hyv, h1]
      · rw [List.map_cons, h4, if_pos hP]
        refine congrArg (List.cons _) (List.map_congr_left fun p hp => ?_)
        have hpne : p.1 ≠ ix := fun e => hnd.1 (e ▸ mem_keys_iff.mpr ⟨p, hp, rfl⟩)
        by_cases hQ : P p.1
        · rw [if_pos ⟨hQ, hpne⟩, if_pos hQ]
        · rw [if_neg fun hc => hQ hc.1, if_neg hQ]
    · have hnone : tmp.getD ix none = none := hinv.1 ix hP
      refine ⟨vx :: ds, tmp2, ?_, by rwa [List.length_set] at h2, hinvf, ?_⟩
      · simp only [PackedVec.phase2, if_pos hix, hnone, h1]
      · rw [List.map_cons, h4, if_neg hP, mul_zero, add_zero]
        refine congrArg (List.cons _) (List.map_congr_left fun p hp => ?_)
        have hpne : p.1 ≠ ix := fun e => hnd.1 (e ▸ mem_keys_iff.mpr ⟨p, hp, rfl⟩)
        by_cases hQ : P p.1
        · rw [if_pos ⟨hQ, hpne⟩, if_pos hQ]
        · rw [if_neg fun hc => hQ hc.1, if_neg hQ]

theorem TmpInv_erase {yd : List ℚ} {yp : List (Nat × ℚ)} {tmp : List (Option Nat)}
    {P : Nat → Prop} (hinv : TmpInv yd yp tmp P) (ix : Nat) (hix : ix < tmp.length) :
    TmpInv yd yp (tmp.set ix none) fun i => P i ∧ i ≠ ix := by
  constructor
  · intro i hni
    by_cases hii : i = ix
    · subst hii
      exact getD_set_eq _ _ _ _ hix
    · rw [getD_set_ne _ _ _ fun e => hii e.symm]
      exact hinv.1 i fun hp => hni ⟨hp, hii⟩
  · intro i hi
    obtain ⟨ky, h1, h2⟩ := hinv.2 i hi.1
    exact ⟨ky, by rw [getD_set_ne _ _ _ fun e => hi.2 e.symm]; exact h1, h2⟩

open Classical in
theorem phase3_spec (yd : List ℚ) (yp : List (Nat × ℚ)) (alpha : ℚ)
    (l : List (Nat × ℚ)) (tmp : List (Option Nat)) (P : Nat → Prop)
    (hinv : TmpInv yd yp tmp P)
    (hbd : ∀ p ∈ l, p.1 < tmp.length)
    (hnd : (keys l).Nodup) :
    ∃ app tmp2, PackedVec.phase3 alpha l tmp = some (app, tmp2) ∧
      app = (l.filter fun p => decide (P p.1)).map fun p => (p.1, alpha * p.2) := by
  induction l generalizing tmp P with
  | nil => exact ⟨[], tmp, rfl, by simp⟩
  | cons hd rest ih =>
    obtain ⟨iy, vy⟩ := hd
    have hiy : iy < tmp.length := hbd (iy, vy) (List.mem_cons_self _ _)
    rw [keys_cons, List.nodup_cons] at hnd
    obtain ⟨app, tmp2, h1, h2⟩ := ih (tmp.set iy none) (fun i => P i ∧ i ≠ iy)
      (TmpInv_erase hinv iy hiy)
      (fun p hp => by rw [List.length_set]; exact hbd p (List.mem_cons_of_mem _ hp))
      hnd.2
    by_cases hP : P iy
    · obtain ⟨ky, hky, _⟩ := hinv.2 iy hP
      refine ⟨(iy, alpha * vy) :: app, tmp2, ?_, ?_⟩
      · simp only [PackedVec.phase3, if_pos hiy, hky, h1]
      · rw [List.filter_cons]
        have hdec : decide (P (iy, vy).1) = true := decide_eq_true hP
        rw [hdec]
        simp only [if_true, List.map_cons]
        rw [h2]
        refine congrArg (List.cons _) (congrArg _ (List.filter_congr fun p hp => ?_))
        have hpne : p.1 ≠ iy := fun e => hnd.1 (e ▸ mem_keys_iff.mpr ⟨p, hp, rfl⟩)
        exact decide_eq_decide.mpr ⟨fun hc => hc.1, fun hc => ⟨hc, hpne⟩⟩
    · have hnone : tmp.getD iy none = none := hinv.1 iy hP
      refine ⟨app, tmp2, ?_, ?_⟩
      · simp only [PackedVec.phase3, if_pos hiy, hnone, h1]
      · rw [List.filter_cons]
        have hdec : decide (P (iy, vy).1) = false := decide_eq_false hP
        rw [hdec]
        simp only [Bool.false_eq_true, if_false]
        rw [h2]
        refine congrArg _ (List.filter_congr fun p hp => ?_)
        have hpne : p.1 ≠ iy := fun e => hnd.1 (e ▸ mem_keys_iff.mpr ⟨p, hp, rfl⟩)
        exact decide_eq_decide.mpr ⟨fun hc => hc.1, fun hc => ⟨hc, hpne⟩⟩

/-! ### Assembly helpers -/

theorem zip_fst_snd (l : List (Nat × ℚ)) : (l.map Prod.fst).zip (l.map Prod.snd) = l := by
  rw [List.zip_map']
  simp

theorem keys_zip (A : List Nat) (B : List ℚ) (h : A.length ≤ B.length) :
    keys (A.zip B) = A :=
  List.map_fst_zip A B h

theorem keysOfMapPair (l : List (Nat × ℚ)) (g : Nat × ℚ → ℚ) :
    keys (l.map fun p => (p.1, g p)) = keys l := by
  simp [keys, List.map_map, Function.comp]

theorem keyVal_map_pair : ∀ (l : List (Nat × ℚ)) (g : Nat × ℚ → ℚ) (j : Nat), j ∈ keys l →
    keyVal (l.map fun p => (p.1, g p)) j = g (j, keyVal l j)
  | [], _, j, hj => absurd hj (by simp [keys])
  | (k, v) :: rest, g, j, hj => by
    rw [List.map_cons]
    by_cases hk : k = j
    · subst hk
      simp [keyVal]
    · rw [keys_cons, List.mem_cons] at hj
      have hj2 : j ∈ keys rest := hj.resolve_left fun e => hk e.symm
      simp only [keyVal, if_neg hk]
      exact keyVal_map_pair rest g j hj2

theorem keyVal_filter : ∀ (l : List (Nat × ℚ)) (r : Nat × ℚ → Bool) (j : Nat),
    (∀ p ∈ l, p.1 = j → r p = true) → keyVal (l.filter r) j = keyVal l j
  | [], _, _, _ => rfl
  | (k, v) :: rest, r, j, hkeep => by
    rw [List.filter_cons]
    by_cases hk : k = j
    · have hr : r (k, v) = true := hkeep (k, v) (List.mem_cons_self _ _) hk
      rw [hr, if_pos rfl]
      simp only [keyVal, if_pos hk]
    · cases hr : r (k, v) with
      | false =>
        simp only [Bool.false_eq_true, if_false]
        rw [keyVal_filter rest r j fun p hp => hkeep p (List.mem_cons_of_mem _ hp)]
        simp only [keyVal, if_neg hk]
      | true =>
        simp only [if_true]
        simp only [keyVal, if_neg hk]
        exact keyVal_filter rest r j fun p hp => hkeep p (List.mem_cons_of_mem _ hp)

theorem keys_filter_fst : ∀ (l : List (Nat × ℚ)) (r : Nat → Bool),
    keys (l.filter fun p => r p.1) = (keys l).filter r
  | [], _ => rfl
  | (k, v) :: rest, r => by
    rw [List.filter_cons, keys_cons, List.filter_cons]
    cases hr : r k with
    | false =>
      simp only [hr, Bool.false_eq_true, if_false]
      exact keys_filter_fst rest r
    | true =>
      simp only [hr, if_true, keys_cons]
      rw [keys_filter_fst rest r]

/-- Complete characterization of `mul_add` on well-formed inputs whose source
indices fit the target's scratch array: it succeeds, keeps `full_length`,
appends exactly the positions of `y` absent from `x` (in `y`'s order) after
`x`'s original positions, keeps `index`/`data` lengths equal, and denotes
`x + alpha * y` at every full-vector position. -/
theorem mulAdd_spec (x y : PackedVec) (alpha : ℚ)
    (hxlen : x.index.length = x.data.length) (hxnd : x.index.Nodup)
    (hxbd : ∀ i ∈ x.index, i < x.full_length)
    (hylen : y.index.length = y.data.length) (hynd : y.index.Nodup)
    (hybd : ∀ i ∈ y.index, i < x.full_length) :
    ∃ z, PackedVec.mulAdd x y alpha = some z ∧
      z.full_length = x.full_length ∧
      z.index = x.index ++ (y.index.filter fun i => decide (i ∉ x.index)) ∧
      z.index.length = z.data.length ∧
      ∀ j, keyVal (z.index.zip z.data) j
        = keyVal (x.index.zip x.data) j + alpha * keyVal (y.index.zip y.data) j := by
  have hinv0 : TmpInv y.data (y.index.zip y.data)
      (List.replicate x.full_length none) fun _ => False :=
    ⟨fun i _ => getD_replicate_none _ _, fun _ h => h.elim⟩
  have hslot : ∀ j iy, y.index.get? j = some iy →
      y.data.get? (0 + j) = some (keyVal (y.index.zip y.data) iy) := by
    intro j iy hj
    rw [Nat.zero_add]
    cases hv : y.data.get? j with
    | none =>
      obtain ⟨hlt, _⟩ := List.get?_eq_some.mp hj
      have h1 : y.data.length ≤ j := List.get?_eq_none.mp hv
      omega
    | some v =>
      rw [keyVal_zip_get y.index y.data j iy v hynd hj hv]
  obtain ⟨tmp1, hp1, hl1, hinv1⟩ := phase1_spec y.data (y.index.zip y.data) y.index 0
    (List.replicate x.full_length none) (fun _ => False) hinv0
    (fun i hi => by rw [List.length_replicate]; exact hybd i hi) hynd hslot
  have hl1b : tmp1.length = x.full_length := by rw [hl1, List.length_replicate]
  have hinv1b : TmpInv y.data (y.index.zip y.data) tmp1 fun i => i ∈ y.index :=
    TmpInv_congr (fun i => by simp) hinv1
  obtain ⟨ds, tmp2, hp2, hl2, hinv2, hds⟩ := phase2_spec y.data (y.index.zip y.data) alpha
    (x.index.zip x.data) tmp1 (fun i => i ∈ y.index) hinv1b
    (fun p hp => by rw [hl1b]; exact hxbd p.1 (List.of_mem_zip hp).1)
    (by rw [keys_zip _ _ (le_of_eq hxlen)]; exact hxnd)
  have hinv2b : TmpInv y.data (y.index.zip y.data) tmp2 fun i => i ∈ y.index ∧ i ∉ x.index :=
    TmpInv_congr (fun i => by rw [keys_zip _ _ (le_of_eq hxlen)]) hinv2
  obtain ⟨app, tmp3, hp3, happ⟩ := phase3_spec y.data (y.index.zip y.data) alpha
    (y.index.zip y.data) tmp2 (fun i => i ∈ y.index ∧ i ∉ x.index) hinv2b
    (fun p hp => by rw [hl2, hl1b]; exact hybd p.1 (List.of_mem_zip hp).1)
    (by rw [keys_zip _ _ (le_of_eq hylen)]; exact hynd)
  have happ2 : app = ((y.index.zip y.data).filter fun p => decide (p.1 ∉ x.index)).map
      fun p => (p.1, alpha * p.2) := by
    rw [happ]
    refine congrArg _ (List.filter_congr fun p hp => ?_)
    have hpy : p.1 ∈ y.index := (List.of_mem_zip hp).1
    exact decide_eq_decide.mpr ⟨fun hc => hc.2, fun hc => ⟨hpy, hc⟩⟩
  have hdsl : ds.length = x.index.length := by
    rw [hds, List.length_map, List.length_zip, ← hxlen, Nat.min_self]
  refine ⟨⟨x.index ++ app.map Prod.fst, ds ++ app.map Prod.snd, x.full_length⟩,
    ?_, rfl, ?_, ?_, ?_⟩
  · simp only [PackedVec.mulAdd, hp1, hp2, hp3]
  · show x.index ++ app.map Prod.fst = _
    refine congrArg _ ?_
    rw [happ2]
    show keys ((((y.index.zip y.data).filter fun p => decide (p.1 ∉ x.index)).map
      fun p => (p.1, alpha * p.2))) = _
    rw [keysOfMapPair,
      keys_filter_fst (y.index.zip y.data) (fun i => decide (i ∉ x.index)),
      keys_zip _ _ (le_of_eq hylen)]
  · show (x.index ++ app.map Prod.fst).length = (ds ++ app.map Prod.snd).length
    simp only [List.length_append, List.length_map, hdsl]
  · intro j
    show keyVal ((x.index ++ app.map Prod.fst).zip (ds ++ app.map Prod.snd)) j = _
    have hzip : (x.index ++ app.map Prod.fst).zip (ds ++ app.map Prod.snd)
        = x.index.zip ds ++ app := by
      rw [List.zip_append hdsl.symm, zip_fst_snd]
    rw [hzip, keyVal_append]
    have hkzd : keys (x.index.zip ds) = x.index := keys_zip _ _ (le_of_eq hdsl.symm)
    rw [hkzd]
    by_cases hjx : j ∈ x.index
    · rw [if_pos hjx]
      have hxi : x.index.zip ds
          = (x.index.zip x.data).map fun p => (p.1, p.2 + alpha *
              (if p.1 ∈ y.index then keyVal (y.index.zip y.data) p.1 else 0)) := by
        conv_lhs => rw [show x.index = (x.index.zip x.data).map Prod.fst from
          (keys_zip _ _ (le_of_eq hxlen)).symm, hds]
        rw [List.zip_map']
        refine List.map_congr_left fun p hp => ?_
        by_cases hm : p.1 ∈ y.index
        · rw [if_pos hm, if_pos hm]
        · rw [if_neg hm, if_neg hm]
      have hjk : j ∈ keys (x.index.zip x.data) := by
        rw [keys_zip _ _ (le_of_eq hxlen)]
        exact hjx
      rw [hxi, keyVal_map_pair _ _ j hjk]
      by_cases hjy : j ∈ y.index
      · rw [if_pos hjy]
      · rw [if_neg hjy, keyVal_eq_zero (l := y.index.zip y.data)
          (by rw [keys_zip _ _ (le_of_eq hylen)]; exact hjy)]
    · rw [if_neg hjx,
        keyVal_eq_zero (l := x.index.zip x.data)
          (by rw [keys_zip _ _ (le_of_eq hxlen)]; exact hjx), zero_add, happ2]
      by_cases hjy : j ∈ y.index
      · have hjkf : j ∈ keys ((y.index.zip y.data).filter fun p => decide (p.1 ∉ x.index)) := by
          have hjz : j ∈ keys (y.index.zip y.data) := by
            rw [keys_zip _ _ (le_of_eq hylen)]
            exact hjy
          obtain ⟨p, hp, hpe⟩ := mem_keys_iff.mp hjz
          exact mem_keys_iff.mpr ⟨p, List.mem_filter.mpr
            ⟨hp, by rw [hpe]; exact decide_eq_true hjx⟩, hpe⟩
        rw [keyVal_map_pair _ _ j hjkf,
          keyVal_filter _ _ j fun p hp hpe => by rw [hpe]; exact decide_eq_true hjx]
      · have h2 : keyVal (y.index.zip y.data) j = 0 :=
          keyVal_eq_zero (by rw [keys_zip _ _ (le_of_eq hylen)]; exact hjy)
        have h1 : keyVal (((y.index.zip y.data).filter fun p => decide (p.1 ∉ x.index)).map
            fun p => (p.1, alpha * p.2)) j = 0 := by
          refine keyVal_eq_zero ?_
          rw [keysOfMapPair, keys_filter_fst (y.index.zip y.data) (fun i => decide (i ∉ x.index)),
            keys_zip _ _ (le_of_eq hylen)]
          intro hm
          exact hjy (List.mem_of_mem_filter hm)
        rw [h1, h2, mul_zero]

/-! ### C1: accumulate correctness -/

theorem getD_zipWith (alpha : ℚ) : ∀ (a b : List ℚ) (j : Nat), a.length = b.length →
    (List.zipWith (fun u v => u + alpha * v) a b).getD j 0 = a.getD j 0 + alpha * b.getD j 0
  | [], [], j, _ => by simp
  | [], _ :: _, _, hab => by simp at hab
  | _ :: _, [], _, hab => by simp at hab
  | u :: a2, v :: b2, 0, _ => by simp
  | u :: a2, v :: b2, j + 1, hab => by
    simp only [List.zipWith_cons_cons, List.getD_cons_succ]
    exact getD_zipWith alpha a2 b2 j (by simpa using hab)

/-- C1: for dense arrays `a`, `b` of equal length and any scalar,
`mul_add` on the gathered forms succeeds and scattering the result yields the
elementwise array whose entry at each position is `a[i] + alpha * b[i]`. -/
theorem mulAdd_gather_scatter (a b : List ℚ) (alpha : ℚ) (hab : a.length = b.length) :
    ∃ z, PackedVec.mulAdd (PackedVec.gather a) (PackedVec.gather b) alpha = some z ∧
      z.scatter = some (List.zipWith (fun u v => u + alpha * v) a b) := by
  obtain ⟨hxl, hxnd, hxbd⟩ := gather_wf a
  obtain ⟨hyl, hynd, hybd⟩ := gather_wf b
  have hybd2 : ∀ i ∈ (PackedVec.gather b).index, i < (PackedVec.gather a).full_length := by
    intro i hi
    have := hybd i hi
    rw [gather_full_length] at this ⊢
    omega
  obtain ⟨z, hz, hzfl, hzidx, hzlen, hzval⟩ :=
    mulAdd_spec _ _ alpha hxl hxnd hxbd hyl hynd hybd2
  have hznd : z.index.Nodup := by
    rw [hzidx]
    refine List.Nodup.append hxnd (hynd.filter _) ?_
    intro i hi1 hi2
    exact (of_decide_eq_true (List.mem_filter.mp hi2).2) hi1
  have hzbd : ∀ i ∈ z.index, i < z.full_length := by
    rw [hzidx, hzfl]
    intro i hi
    rcases List.mem_append.mp hi with hi | hi
    · exact hxbd i hi
    · exact hybd2 i (List.mem_of_mem_filter hi)
  obtain ⟨d, hd, hdlen, hdget⟩ := scatter_spec z hzlen hznd hzbd
  refine ⟨z, hz, ?_⟩
  rw [hd]
  refine congrArg some (list_ext_getD ?_ fun j => ?_)
  · rw [hdlen, hzfl, gather_full_length, List.length_zipWith, hab, Nat.min_self]
  · rw [hdget j, hzval j, gather_zip, gather_zip, gatherPairs_keyVal, gatherPairs_keyVal,
      getD_zipWith alpha a b j hab]

/-- Witness for C1 at a concrete input. -/
theorem mulAdd_gather_scatter_witness :
    ∃ z, PackedVec.mulAdd (PackedVec.gather [1, 0, 3]) (PackedVec.gather [0, 2, 5]) 2 = some z ∧
      z.scatter = some (List.zipWith (fun u v => u + 2 * v) [1, 0, 3] [0, 2, 5]) :=
  mulAdd_gather_scatter [1, 0, 3] [0, 2, 5] 2 rfl

/-! ### C6, C9, C10: mul_add invariants and safety -/

theorem nodup_append_filter (A B : List Nat) (hA : A.Nodup) (hB : B.Nodup) :
    (A ++ (B.filter fun i => decide (i ∉ A))).Nodup := by
  refine List.Nodup.append hA (hB.filter _) ?_
  intro i hi1 hi2
  exact (of_decide_eq_true (List.mem_filter.mp hi2).2) hi1

/-- C6: `mul_add(x, y, 0)` on well-formed vectors of equal `full_length`
succeeds and leaves `x` observationally unchanged: the scatter result is the
same as before the call (the internal storage may still grow by zero-valued
entries at positions of `y` absent from `x`). -/
theorem mulAdd_zero_preserves_scatter (x y : PackedVec)
    (hx : x.WF) (hy : y.WF) (hfl : x.full_length = y.full_length) :
    ∃ z, PackedVec.mulAdd x y 0 = some z ∧ z.scatter = x.scatter := by
  obtain ⟨hxl, hxnd, hxbd⟩ := hx
  obtain ⟨hyl, hynd, hybd⟩ := hy
  have hybd2 : ∀ i ∈ y.index, i < x.full_length := fun i hi => by
    rw [hfl]; exact hybd i hi
  obtain ⟨z, hz, hzfl, hzidx, hzlen, hzval⟩ := mulAdd_spec x y 0 hxl hxnd hxbd hyl hynd hybd2
  have hznd : z.index.Nodup := by
    rw [hzidx]; exact nodup_append_filter _ _ hxnd hynd
  have hzbd : ∀ i ∈ z.index, i < z.full_length := by
    rw [hzidx, hzfl]
    intro i hi
    rcases List.mem_append.mp hi with hi | hi
    · exact hxbd i hi
    · exact hybd2 i (List.mem_of_mem_filter hi)
  obtain ⟨dz, hdz, hdzlen, hdzget⟩ := scatter_spec z hzlen hznd hzbd
  obtain ⟨dx, hdx, hdxlen, hdxget⟩ := scatter_spec x hxl hxnd hxbd
  refine ⟨z, hz, ?_⟩
  rw [hdz, hdx]
  refine congrArg some (list_ext_getD ?_ fun j => ?_)
  · rw [hdzlen, hdxlen, hzfl]
  · rw [hdzget j, hdxget j, hzval j, zero_mul, add_zero]

/-- Witness for C6 at a concrete input. -/
theorem mulAdd_zero_preserves_scatter_witness :
    ∃ z, PackedVec.mulAdd (PackedVec.gather [1, 0]) (PackedVec.gather [0, 2]) 0 = some z ∧
      z.scatter = (PackedVec.gather [1, 0]).scatter :=
  mulAdd_zero_preserves_scatter _ _ (by decide) (by decide) rfl

/-- C9: `mul_add` on well-formed vectors of equal `full_length` keeps the
result's positions pairwise distinct and in range (no position appears twice,
though the sequence may no longer be sorted), and keeps
`len(index) == len(data)`. -/
theorem mulAdd_preserves_invariants (x y : PackedVec) (alpha : ℚ)
    (hx : x.WF) (hy : y.WF) (hfl : x.full_length = y.full_length) :
    ∃ z, PackedVec.mulAdd x y alpha = some z ∧
      z.index.Nodup ∧ (∀ i ∈ z.index, i < z.full_length) ∧
      z.index.length = z.data.length := by
  obtain ⟨hxl, hxnd, hxbd⟩ := hx
  obtain ⟨hyl, hynd, hybd⟩ := hy
  have hybd2 : ∀ i ∈ y.index, i < x.full_length := fun i hi => by
    rw [hfl]; exact hybd i hi
  obtain ⟨z, hz, hzfl, hzidx, hzlen, _⟩ := mulAdd_spec x y alpha hxl hxnd hxbd hyl hynd hybd2
  refine ⟨z, hz, ?_, ?_, hzlen⟩
  · rw [hzidx]; exact nodup_append_filter _ _ hxnd hynd
  · rw [hzidx, hzfl]
    intro i hi
    rcases List.mem_append.mp hi with hi | hi
    · exact hxbd i hi
    · exact hybd2 i (List.mem_of_mem_filter hi)

/-- Witness for C9 at a concrete input. -/
theorem mulAdd_preserves_invariants_witness :
    ∃ z, PackedVec.mulAdd (PackedVec.gather [1, 0]) (PackedVec.gather [0, 2]) 5 = some z ∧
      z.index.Nodup ∧ (∀ i ∈ z.index, i < z.full_length) ∧
      z.index.length = z.data.length :=
  mulAdd_preserves_invariants _ _ 5 (by decide) (by decide) rfl

/-- C10: on well-formed vectors, whenever every index of `y` is below
`x.full_length` (in particular under equal `full_length` with the index-range
invariant), every array access of `mul_add` is in bounds and the operation
completes without an out-of-range fault. -/
theorem mulAdd_no_out_of_range (x y : PackedVec) (alpha : ℚ)
    (hx : x.WF) (hy : y.WF) (hybd2 : ∀ i ∈ y.index, i < x.full_length) :
    ∃ z, PackedVec.mulAdd x y alpha = some z := by
  obtain ⟨hxl, hxnd, hxbd⟩ := hx
  obtain ⟨hyl, hynd, _⟩ := hy
  obtain ⟨z, hz, _⟩ := mulAdd_spec x y alpha hxl hxnd hxbd hyl hynd hybd2
  exact ⟨z, hz⟩

/-- Witness for C10 at a concrete input (note the differing `full_length`). -/
theorem mulAdd_no_out_of_range_witness :
    ∃ z, PackedVec.mulAdd (PackedVec.gather [5, 0]) (PackedVec.gather [7]) 3 = some z :=
  mulAdd_no_out_of_range _ _ 3 (by decide) (by decide) (by decide)

/-! ### C2: the ascending invariant after mul_add -/

/-- Counterexample to C2: two well-formed gathered vectors of equal
`full_length` for which `mul_add` returns an index sequence `[1, 0]` that is
not strictly increasing — `mul_add` does not restore the ascending order. -/
theorem mulAdd_not_sorted_counterexample :
    (PackedVec.gather [0, 1]).WF ∧ (PackedVec.gather [1, 0]).WF ∧
    (PackedVec.gather [0, 1]).full_length = (PackedVec.gather [1, 0]).full_length ∧
    (PackedVec.mulAdd (PackedVec.gather [0, 1]) (PackedVec.gather [1, 0]) 1).map PackedVec.index
      = some [1, 0] ∧
    ¬ List.Pairwise (fun i j => i < j) [1, 0] :=
  ⟨by decide, by decide, by decide, by decide, by decide⟩

/-- C2 amended: after `gather` the index sequence is strictly increasing, but
`mul_add` does not restore ascending order before returning: on well-formed
inputs of equal `full_length` the resulting index sequence is `x`'s original
(ascending) indices followed by the new positions of `y` in `y`'s order — a
concatenation of two ascending runs that is in general not globally sorted. -/
theorem gather_sorted_and_mulAdd_appends :
    (∀ v : List ℚ, (PackedVec.gather v).index.Pairwise (· < ·)) ∧
    (∀ (x y : PackedVec) (alpha : ℚ), x.WF → y.WF → x.full_length = y.full_length →
      ∃ z, PackedVec.mulAdd x y alpha = some z ∧
        z.index = x.index ++ (y.index.filter fun i => decide (i ∉ x.index))) := by
  refine ⟨gather_index_pairwise, fun x y alpha hx hy hfl => ?_⟩
  obtain ⟨hxl, hxnd, hxbd⟩ := hx
  obtain ⟨hyl, hynd, hybd⟩ := hy
  obtain ⟨z, hz, _, hzidx, _, _⟩ := mulAdd_spec x y alpha hxl hxnd hxbd hyl hynd
    fun i hi => by rw [hfl]; exact hybd i hi
  exact ⟨z, hz, hzidx⟩

/-- Witness for the amended C2 at concrete inputs. -/
theorem gather_sorted_and_mulAdd_appends_witness :
    (PackedVec.gather [0, 1]).index.Pairwise (· < ·) ∧
    (∃ z, PackedVec.mulAdd (PackedVec.gather [0, 1]) (PackedVec.gather [1, 0]) 1 = some z ∧
      z.index = (PackedVec.gather [0, 1]).index ++
        ((PackedVec.gather [1, 0]).index.filter
          fun i => decide (i ∉ (PackedVec.gather [0, 1]).index))) :=
  ⟨gather_sorted_and_mulAdd_appends.1 [0, 1],
   gather_sorted_and_mulAdd_appends.2 _ _ 1 (by decide) (by decide) rfl⟩

/-! ### C3: no domain-mismatch validation -/

/-- Counterexample to C3: the `full_length`s differ, yet `mul_add` signals no
error of any kind — it silently returns a result. -/
theorem mulAdd_domain_mismatch_counterexample :
    (PackedVec.gather [1, 0]).full_length ≠ (PackedVec.gather [1]).full_length ∧
    PackedVec.mulAdd (PackedVec.gather [1, 0]) (PackedVec.gather [1]) 1
      = some { index := [0], data := [2], full_length := 2 } := by
  refine ⟨by decide, ?_⟩
  norm_num [PackedVec.mulAdd, PackedVec.gather, PackedVec.gatherWithAdvisory,
    PackedVec.phase1, PackedVec.phase2, PackedVec.phase3, List.enum, List.enumFrom,
    List.filter]

theorem phase1_none : ∀ (l : List Nat) (k0 : Nat) (tmp : List (Option Nat)),
    (∃ i ∈ l, tmp.length ≤ i) → PackedVec.phase1 l k0 tmp = none
  | [], _, _, h => absurd h (by simp)
  | iy :: rest, k0, tmp, h => by
    by_cases hiy : iy < tmp.length
    · rw [PackedVec.phase1, if_pos hiy]
      refine phase1_none rest (k0 + 1) _ ?_
      obtain ⟨i, hi, hbig⟩ := h
      rcases List.mem_cons.mp hi with he | hm
      · exact absurd hbig (by omega)
      · exact ⟨i, hm, by rw [List.length_set]; exact hbig⟩
    · rw [PackedVec.phase1, if_neg hiy]

/-- C3 amended: `mul_add` performs no `full_length` validation and signals no
domain-mismatch error.  On well-formed inputs it silently completes whenever
every index of `y` is below `x.full_length` (whether or not the
`full_length`s match), and it hits the index-out-of-range fault of the
scratch array whenever some index of `y` is at least `x.full_length`. -/
theorem mulAdd_no_domain_check :
    (∀ (x y : PackedVec) (alpha : ℚ), x.WF → y.WF →
      (∀ i ∈ y.index, i < x.full_length) →
      (PackedVec.mulAdd x y alpha).isSome = true) ∧
    (∀ (x y : PackedVec) (alpha : ℚ), (∃ i ∈ y.index, x.full_length ≤ i) →
      PackedVec.mulAdd x y alpha = none) := by
  constructor
  · intro x y alpha hx hy hbd
    obtain ⟨hxl, hxnd, hxbd⟩ := hx
    obtain ⟨hyl, hynd, _⟩ := hy
    obtain ⟨z, hz, _⟩ := mulAdd_spec x y alpha hxl hxnd hxbd hyl hynd hbd
    rw [hz]
    rfl
  · intro x y alpha h
    have h1 : PackedVec.phase1 y.index 0 (List.replicate x.full_length none) = none := by
      refine phase1_none _ _ _ ?_
      obtain ⟨i, hi, hbig⟩ := h
      exact ⟨i, hi, by rw [List.length_replicate]; exact hbig⟩
    simp only [PackedVec.mulAdd, h1]

/-- Witness for the amended C3: a silent completion with mismatched
`full_length`, and an out-of-range fault with mismatched `full_length`. -/
theorem mulAdd_no_domain_check_witness :
    (PackedVec.mulAdd (PackedVec.gather [1, 0]) (PackedVec.gather [1]) 1).isSome = true ∧
    PackedVec.mulAdd (PackedVec.gather [1]) (PackedVec.gather [0, 1]) 1 = none :=
  ⟨mulAdd_no_domain_check.1 _ _ 1 (by decide) (by decide) (by decide),
   mulAdd_no_domain_check.2 _ _ 1 ⟨1, by decide, by decide⟩⟩
